import Mathlib

/-!
Shallow embedding of `src/lib/number-converter.ts`, a TypeScript utility that
converts between numeric strings, shorthand notation such as "2.5M", and
English words.

Modelling conventions:
* JavaScript numbers are modelled as exact rationals (`ℚ`); `Option ℚ` stands
  for "number or NaN", with `none` playing the role of NaN.  Every numeric
  value the pipeline manipulates is a decimal fraction, for which rational
  arithmetic agrees with the double arithmetic of the source at every point
  the claims touch.
* JavaScript strings are Lean `String`s; the character-level work is done on
  `String.data : List Char`.
* `while` loops are embedded as structurally recursive functions with an
  explicit iteration bound (the bound provably suffices, see the unfolding
  lemmas), so that every definition evaluates inside the kernel.
-/

/- The Batteries rational arithmetic is `@[irreducible]` by default, which
would keep `decide` from evaluating the embedding on concrete inputs; restore
the ordinary reducibility of the four arithmetic operations for this file. -/
attribute [local semireducible] Rat.mul Rat.add Rat.inv Rat.sub

/-! ## Word tables of the source (lines 25-28) -/

def ONES : List String :=
  ["", "one", "two", "three", "four", "five", "six", "seven", "eight", "nine"]

def TEENS : List String :=
  ["ten", "eleven", "twelve", "thirteen", "fourteen", "fifteen", "sixteen",
   "seventeen", "eighteen", "nineteen"]

def TENS : List String :=
  ["", "", "twenty", "thirty", "forty", "fifty", "sixty", "seventy", "eighty",
   "ninety"]

def SCALES : List String := ["", "thousand", "million", "billion", "trillion"]

/-- JavaScript array indexing `arr[q]` with a numeric index: an integral index
within bounds returns the element, anything else yields `undefined`, which the
source only ever uses inside string concatenation, where it renders as the
string "undefined". -/
def jsIx (arr : List String) (q : ℚ) : String :=
  if q.den = 1 ∧ 0 ≤ q.num then arr.getD q.num.toNat "undefined" else "undefined"

/-- JavaScript array indexing with a natural-number index (used for `SCALES`,
whose index is the integer loop counter `scaleIndex`). -/
def jsIxN (arr : List String) (n : ℕ) : String := arr.getD n "undefined"

/-- JavaScript `a % b` for `a ≥ 0`, `b > 0` (every use of `%` in the source has
a nonnegative left operand, where truncation and flooring agree). -/
def jsMod (a b : ℚ) : ℚ := a - b * (⌊a / b⌋ : ℚ)

/-! ## Decimal digit strings -/

def digitVal (c : Char) : ℕ := c.toNat - 48

def digitsVal (l : List Char) : ℕ := l.foldl (fun a c => 10 * a + digitVal c) 0

/-- Decimal digits of `n`, most significant first; first argument is an
iteration bound (`n + 1` always suffices). -/
def natDigitsF : ℕ → ℕ → List Char
  | 0, _ => []
  | f + 1, n =>
    if n < 10 then [Nat.digitChar n]
    else natDigitsF f (n / 10) ++ [Nat.digitChar (n % 10)]

def natDigits (n : ℕ) : List Char := natDigitsF (n + 1) n

def natDigitsStr (n : ℕ) : String := ⟨natDigits n⟩

/-- Rendering of an integer as JavaScript `toString` renders integral numbers. -/
def intRepr (n : ℤ) : String :=
  if n < 0 then "-" ++ natDigitsStr n.natAbs else natDigitsStr n.natAbs

/-! ## JavaScript number-to-string and toFixed -/

/-- Smallest `k` with `d ∣ 10 ^ k`, when one exists below `d + 1` (it does for
every denominator the pipeline can produce, which are all of the form
`2 ^ a * 5 ^ b`); defaults to `0` otherwise. -/
def minPow10 (d : ℕ) : ℕ := (((List.range (d + 1)).find? fun k => 10 ^ k % d = 0).getD 0)

def padZeros (l : List Char) (k : ℕ) : List Char := List.replicate (k - l.length) '0' ++ l

/-- JavaScript `Number.prototype.toString` on the values this program can
produce: integers render as decimal integers, and non-integral decimal
fractions render as their exact (shortest) decimal expansion, which is what
the double-shortest-round-trip rule prints for them. -/
def jsToString (q : ℚ) : String :=
  if q.den = 1 then intRepr q.num
  else
    let k := minPow10 q.den
    let total := q.num.natAbs * (10 ^ k / q.den)
    (if q.num < 0 then "-" else "") ++ natDigitsStr (total / 10 ^ k) ++ "." ++
      ⟨padZeros (natDigits (total % 10 ^ k)) k⟩

/-- JavaScript `q.toFixed(f)` for `q ≥ 0` (its only uses in the source):
round `q * 10 ^ f` to the nearest integer, ties upward, then print with `f`
decimal places. -/
def toFixedQ (q : ℚ) (f : ℕ) : String :=
  let m := (⌊q * 10 ^ f + 1 / 2⌋).toNat
  if f = 0 then natDigitsStr m
  else natDigitsStr (m / 10 ^ f) ++ "." ++ ⟨padZeros (natDigits (m % 10 ^ f)) f⟩

/-! ## parseFloat -/

/-- JavaScript `parseFloat` on an unsigned input drawn from the alphabet
`0-9 . -` (the only alphabet it is applied to after the source's cleaning
steps): longest valid prefix `digits [. digits]`, `none` for NaN. -/
def parseFloatMag (l : List Char) : Option ℚ :=
  if (l.dropWhile Char.isDigit).head? = some '.' then
    if l.takeWhile Char.isDigit = [] ∧
        ((l.dropWhile Char.isDigit).drop 1).takeWhile Char.isDigit = [] then none
    else
      some ((digitsVal (l.takeWhile Char.isDigit) : ℚ) +
        (digitsVal (((l.dropWhile Char.isDigit).drop 1).takeWhile Char.isDigit) : ℚ) /
          10 ^ (((l.dropWhile Char.isDigit).drop 1).takeWhile Char.isDigit).length)
  else if l.takeWhile Char.isDigit = [] then none
  else some ((digitsVal (l.takeWhile Char.isDigit) : ℚ))

/-- JavaScript `parseFloat` (alphabet `0-9 . -`): an optional leading minus
sign, then the unsigned parse. -/
def parseFloatQ (l : List Char) : Option ℚ :=
  if l.head? = some '-' then (parseFloatMag (l.drop 1)).map fun q => -q
  else parseFloatMag l

/-! ## parseShorthand (source lines 77-97) -/

/-- Characters kept by the cleaning step `input.replace(/[^0-9.KMBTkmbt]/g, '')`. -/
def keepShort (c : Char) : Bool :=
  c.isDigit || c = '.' || c = 'K' || c = 'M' || c = 'B' || c = 'T' ||
    c = 'k' || c = 'm' || c = 'b' || c = 't'

def suffixChars : List Char := ['K', 'M', 'B', 'T', 'k', 'm', 'b', 't']

/-- The regex `^(\d+\.?\d*)([KMBTkmbt]?)$` on the cleaned string splits off an
optional trailing suffix letter; the rest must be the number part. -/
def splitSuffix (l : List Char) : List Char × Option Char :=
  match l.getLast? with
  | some c => if suffixChars.contains c then (l.dropLast, some c) else (l, none)
  | none => (l, none)

/-- Whether a character list matches the number-part group `\d+\.?\d*`
anchored at both ends. -/
def numPartOk (l : List Char) : Bool :=
  !(l.takeWhile Char.isDigit).isEmpty &&
    ((l.dropWhile Char.isDigit).isEmpty ||
      ((l.dropWhile Char.isDigit).head? == some '.' &&
        ((l.dropWhile Char.isDigit).drop 1).all Char.isDigit))

/-- The `multipliers` table of the source, in source order. -/
def multPairs : List (Char × ℚ) :=
  [('k', 1000), ('K', 1000), ('m', 1000000), ('M', 1000000),
   ('b', 1000000000), ('B', 1000000000), ('t', 1000000000000), ('T', 1000000000000)]

/-- Body of `parseShorthand` applied to the already-cleaned character list. -/
def shorthandCore (cleanInput : List Char) : Option ℚ :=
  if numPartOk (splitSuffix cleanInput).1 then
    match parseFloatQ (splitSuffix cleanInput).1 with
    | none => none
    | some b =>
      some (b * (match (splitSuffix cleanInput).2 with
                 | some c => (multPairs.lookup c).getD 1
                 | none => 1))
  else none

/-- `parseShorthand` of the source: clean, match the anchored grammar, and
multiply the parsed decimal by the suffix multiplier; `none` is the `null`
no-match result. -/
def parseShorthand (input : String) : Option ℚ :=
  shorthandCore (input.data.filter keepShort)

/-! ## numberToShorthand (source lines 100-117) -/

/-- The sign that `numberToShorthand` prefixes. -/
def signStr (num : ℚ) : String := if num < 0 then "-" else ""

def numberToShorthand (num : ℚ) : String :=
  if num = 0 then "0"
  else if 1000000000000 ≤ |num| then
    signStr num ++ toFixedQ (|num| / 1000000000000)
      (if jsMod |num| 1000000000000 = 0 then 0 else 1) ++ "T"
  else if 1000000000 ≤ |num| then
    signStr num ++ toFixedQ (|num| / 1000000000)
      (if jsMod |num| 1000000000 = 0 then 0 else 1) ++ "B"
  else if 1000000 ≤ |num| then
    signStr num ++ toFixedQ (|num| / 1000000)
      (if jsMod |num| 1000000 = 0 then 0 else 1) ++ "M"
  else if 1000 ≤ |num| then
    signStr num ++ toFixedQ (|num| / 1000)
      (if jsMod |num| 1000 = 0 then 0 else 1) ++ "K"
  else jsToString num

/-! ## numberToWords (source lines 30-74) -/

/-- `convertHundreds` of the source, with the mutation of `num` and `result`
unrolled into lets.  The argument is a rational because the first base-1000
chunk of a fractional input flows in here unchanged. -/
def convertHundredsQ (num : ℚ) : String :=
  let r1 := if 100 ≤ num then jsIx ONES ((⌊num / 100⌋ : ℤ) : ℚ) ++ " hundred" else ""
  let n1 := if 100 ≤ num then jsMod num 100 else num
  let r2 := if 100 ≤ num ∧ 0 < n1 then r1 ++ " " else r1
  if 20 ≤ n1 then
    let r3 := r2 ++ jsIx TENS ((⌊n1 / 10⌋ : ℤ) : ℚ)
    let n2 := jsMod n1 10
    if 0 < n2 then r3 ++ "-" ++ jsIx ONES n2 else r3
  else if 10 ≤ n1 then r2 ++ jsIx TEENS (n1 - 10)
  else if 0 < n1 then r2 ++ jsIx ONES n1
  else r2

/-- JavaScript `parts.join(' ')`. -/
def joinSpace : List String → String
  | [] => ""
  | [p] => p
  | p :: q :: rest => p ++ " " ++ joinSpace (q :: rest)

/-- The `while (num > 0)` loop of `numberToWords` from its second iteration on
(integral `num`, `scaleIndex ≥ 1`), producing the `parts` list in its final
order: each iteration appends at the front, so earlier (less significant)
chunks end up later.  First argument is an iteration bound. -/
def wordsLoopF : ℕ → ℕ → ℕ → List String
  | 0, _, _ => []
  | f + 1, n, si =>
    if n = 0 then []
    else
      wordsLoopF f (n / 1000) (si + 1) ++
        (if 0 < n % 1000 then
          [if 0 < si then
            convertHundredsQ ((n % 1000 : ℕ) : ℚ) ++ " " ++ jsIxN SCALES si
          else convertHundredsQ ((n % 1000 : ℕ) : ℚ)]
        else [])

def wordsLoop (n si : ℕ) : List String := wordsLoopF n n si

/-- `numberToWords` on a positive argument: the first loop iteration takes the
(possibly fractional) chunk `num % 1000`; afterwards `num` is the integer
`Math.floor(num / 1000)` and the loop continues with `scaleIndex = 1`. -/
def numberToWordsAux (q : ℚ) : String :=
  joinSpace (wordsLoop (⌊q / 1000⌋).toNat 1 ++
    (if 0 < jsMod q 1000 then [convertHundredsQ (jsMod q 1000)] else []))

/-- `numberToWords` of the source.  The single recursive call on `-num` is
unfolded: `-num` is positive, so it lands in the positive branch. -/
def numberToWords (q : ℚ) : String :=
  if q = 0 then "zero"
  else if q < 0 then "negative " ++ numberToWordsAux (-q)
  else numberToWordsAux q

/-! ## Currency extraction and the orchestrator (source lines 13-22, 120-182) -/

/-- `CURRENCY_MAP` of the source, in source (= iteration) order.  The keys are
single characters. -/
def CURRENCY_MAP : List (Char × String) :=
  [('$', "dollars"), ('€', "euros"), ('£', "pounds"), ('¥', "yen"),
   ('₹', "rupees"), ('₽', "rubles"), ('₩', "won"), ('¢', "cents")]

def currencySymbols : List Char := CURRENCY_MAP.map Prod.fst

/-- `extractCurrency`: the first symbol of the table contained in the input. -/
def extractCurrency (input : String) : Option Char :=
  (CURRENCY_MAP.find? fun p => input.data.contains p.1).map fun p => p.1

/-- The complete set of characters removed by `String.prototype.trim`: the
ECMAScript WhiteSpace productions (TAB, VT, FF, SP, NBSP, ZWNBSP and the
Unicode space separators of category Zs) and the LineTerminator productions
(LF, CR, LS, PS). -/
def wsList : List Char :=
  [' ', '\t', '\n', '\r', '\x0b', '\x0c', '\u00A0', '\u1680',
   '\u2000', '\u2001', '\u2002', '\u2003', '\u2004', '\u2005', '\u2006',
   '\u2007', '\u2008', '\u2009', '\u200A', '\u202F', '\u205F', '\u3000',
   '\u2028', '\u2029', '\uFEFF']

def wsChar (c : Char) : Bool := wsList.contains c

/-- JavaScript `input.trim()`. -/
def jsTrim (l : List Char) : List Char :=
  ((l.dropWhile wsChar).reverse.dropWhile wsChar).reverse

/-- Characters kept by the fallback cleaning `replace(/[^0-9.-]/g, '')`. -/
def keepFall (c : Char) : Bool := c.isDigit || c = '.' || c = '-'

/-- The `ConversionResult` record of the source.  `numericValue` is
`Option ℚ`: `none` models NaN (which the orchestrator never stores, see
claim C10). -/
structure ConversionResult where
  originalInput : String
  numericValue : Option ℚ
  shorthandForm : String
  wordsForm : String
  currency : Option Char
  isValid : Bool
deriving DecidableEq

/-- The two-step numeric decode of the orchestrator on the trimmed input:
`parseShorthand` first, the plain fallback when it returns `null`; `none` is
NaN. -/
def decodedOfTrimmed (t : List Char) : Option ℚ :=
  match parseShorthand (String.mk t) with
  | some v => some v
  | none => parseFloatQ (t.filter keepFall)

/-- `convertNumber` of the source. -/
def convertNumber (input : String) : ConversionResult :=
  if (jsTrim input.data).isEmpty then
    { originalInput := input, numericValue := some 0, shorthandForm := "0",
      wordsForm := "zero", currency := none, isValid := false }
  else
    match decodedOfTrimmed (jsTrim input.data) with
    | none =>
      { originalInput := input, numericValue := some 0, shorthandForm := "0",
        wordsForm := "invalid input",
        currency := extractCurrency (String.mk (jsTrim input.data)),
        isValid := false }
    | some v =>
      { originalInput := input, numericValue := some v,
        shorthandForm :=
          (match extractCurrency (String.mk (jsTrim input.data)) with
           | some c => String.singleton c
           | none => "") ++ numberToShorthand v,
        wordsForm :=
          numberToWords v ++
            (match (extractCurrency (String.mk (jsTrim input.data))).bind
                (fun c => CURRENCY_MAP.lookup c) with
             | some w => " " ++ w
             | none => ""),
        currency := extractCurrency (String.mk (jsTrim input.data)),
        isValid := true }

/-! ## Specification-side definitions

These follow the wording of the specification (not the control flow of the
source) and are compared with the source-translated definitions above. -/

/-- The numeric-parse pipeline of the orchestrator, expressed on the raw
character list: shorthand parse of the kept characters, else the plain
fallback; used to state that validity is independent of currency symbols. -/
def decodedValue (l : List Char) : Option ℚ :=
  match shorthandCore (l.filter keepShort) with
  | some v => some v
  | none => parseFloatQ (l.filter keepFall)

/-- The suffix-magnitude table as the specification words it: none/absent
gives 1, K gives 1e3, M gives 1e6, B gives 1e9, T gives 1e12,
case-insensitively. -/
def multOf : Option Char → ℚ
  | none => 1
  | some c =>
    if c = 'K' ∨ c = 'k' then 1000
    else if c = 'M' ∨ c = 'm' then 1000000
    else if c = 'B' ∨ c = 'b' then 1000000000
    else if c = 'T' ∨ c = 't' then 1000000000000
    else 1

/-- The decimal value denoted by a number part matching `\d+\.?\d*`: the
digits before the dot as an integer plus the digits after the dot scaled
down by their count. -/
def numPartVal (l : List Char) : ℚ :=
  (digitsVal (l.takeWhile Char.isDigit) : ℚ) +
    (digitsVal (((l.dropWhile Char.isDigit).drop 1).takeWhile Char.isDigit) : ℚ) /
      10 ^ (((l.dropWhile Char.isDigit).drop 1).takeWhile Char.isDigit).length

/-- The descending scale table of the specification (section 4.4). -/
def scaleTable : List (ℚ × String) :=
  [(1000000000000, "T"), (1000000000, "B"), (1000000, "M"), (1000, "K")]

/-- `numberToShorthand` as the specification words it: zero is "0"; otherwise
the first (largest) applicable scale of the descending table is applied to the
absolute value, rendered with zero decimals when the division is exact and one
otherwise, the scale letter appended and the sign prefixed; below every scale
the plain decimal rendering is used. -/
def spec_numberToShorthand (num : ℚ) : String :=
  if num = 0 then "0"
  else
    match scaleTable.find? (fun p => decide (p.1 ≤ |num|)) with
    | some p =>
      (if num < 0 then "-" else "") ++
        toFixedQ (|num| / p.1) (if jsMod |num| p.1 = 0 then 0 else 1) ++ p.2
    | none => jsToString num

/-- Base-1000 chunks of `n` paired with their scale indices, least significant
first; first argument is an iteration bound. -/
def chunksF : ℕ → ℕ → ℕ → List (ℕ × ℕ)
  | 0, _, _ => []
  | f + 1, n, i =>
    if n = 0 then [] else (i, n % 1000) :: chunksF f (n / 1000) (i + 1)

def chunksIdx (n i : ℕ) : List (ℕ × ℕ) := chunksF n n i

/-- Rendering of one (scale index, chunk) pair: the hundreds/tens/ones words,
with the scale word appended for indices at least 1. -/
def renderChunk (p : ℕ × ℕ) : String :=
  if p.1 = 0 then convertHundredsQ (p.2 : ℚ)
  else convertHundredsQ (p.2 : ℚ) ++ " " ++ jsIxN SCALES p.1

/-- `numberToWords` on a positive integer as the specification words it:
decompose into base-1000 chunks, omit the zero chunks, assemble most
significant first, space-joined. -/
def spec_wordsOfNat (n : ℕ) : String :=
  joinSpace ((((chunksIdx n 0).filter fun p => decide (p.2 ≠ 0)).reverse).map renderChunk)

/-! ## The double range: overflow to Infinity and loop termination

The definitions above model every finite JavaScript number as an exact
rational, which is exact at every finite value the pipeline produces but
cannot express overflow: `parseFloat` of a sufficiently long digit string
(at or beyond the double overflow threshold) returns `Infinity`, the
multiplication by a suffix magnitude can overflow likewise, and
`numberToWords` then never terminates (`Infinity % 1000` is NaN, so no chunk
is ever pushed, and `Math.floor(Infinity / 1000)` is `Infinity` again).  The
layer below refines the decode into the double domain and models the
`while (num > 0)` loop — the one construct of the source that can fail to
terminate — with an explicit iteration bound, so that termination and
divergence become statable. -/

/-- A JavaScript double as far as this pipeline distinguishes it: a finite
value (kept exact, as above) or a signed infinity.  NaN is `none` at
`Option JSVal`. -/
inductive JSVal where
  | fin (q : ℚ)
  | inf (neg : Bool)
deriving DecidableEq

/-- The double overflow threshold: an exact magnitude at or beyond
`2 ^ 1024 - 2 ^ 970` rounds to an infinity. -/
def OVERFLOW : ℚ := ((2 ^ 1024 - 2 ^ 970 : ℕ) : ℚ)

/-- Map an exact value into the double range: saturate to a signed infinity
at the overflow threshold, keep everything below it exact. -/
def fitDouble (q : ℚ) : JSVal :=
  if OVERFLOW ≤ q then JSVal.inf false
  else if q ≤ -OVERFLOW then JSVal.inf true
  else JSVal.fin q

/-- The numeric decode of the orchestrator in the double domain: the exact
decode saturated into the double range (`none` is NaN).  The shorthand path
multiplies a nonnegative parse by a multiplier at least 1 and the fallback
is a single `parseFloat`, so saturating the final exact value captures
exactly the decodes that overflow. -/
def decodedValueD (l : List Char) : Option JSVal := (decodedValue l).map fitDouble

/-- JavaScript `v > 0` on the double domain (`NaN > 0` is false). -/
def jsGtZero : Option JSVal → Bool
  | none => false
  | some (JSVal.fin q) => decide (0 < q)
  | some (JSVal.inf neg) => !neg

/-- JavaScript `v % 1000` on the double domain: finite values as before,
`Infinity % 1000 = NaN`. -/
def jsMod1000 : Option JSVal → Option JSVal
  | none => none
  | some (JSVal.fin q) => some (JSVal.fin (jsMod q 1000))
  | some (JSVal.inf _) => none

/-- JavaScript `Math.floor(v / 1000)` on the double domain:
`Math.floor(±Infinity / 1000) = ±Infinity`. -/
def jsFloorDiv1000 : Option JSVal → Option JSVal
  | none => none
  | some (JSVal.fin q) => some (JSVal.fin ((⌊q / 1000⌋ : ℤ) : ℚ))
  | some (JSVal.inf neg) => some (JSVal.inf neg)

/-- The `parts` contribution of one loop iteration on the double domain: the
chunk is pushed only when `chunk > 0`, which is false for the NaN chunk an
infinite `num` produces. -/
def chunkPartD (v : Option JSVal) (si : ℕ) : List String :=
  match jsMod1000 v with
  | some (JSVal.fin c) =>
    if 0 < c then
      [if 0 < si then convertHundredsQ c ++ " " ++ jsIxN SCALES si
       else convertHundredsQ c]
    else []
  | _ => []

/-- The `while (num > 0)` loop of `numberToWords` on the double domain, run
for at most `f` iterations; `none` means the loop has not finished within
`f` iterations.  As in `wordsLoop`, each iteration appends its chunk after
the parts of the later (more significant) iterations, matching the source's
`unshift`. -/
def wordsWhileF : ℕ → Option JSVal → ℕ → Option (List String)
  | 0, v, _ => if jsGtZero v then none else some []
  | f + 1, v, si =>
    if jsGtZero v then
      (wordsWhileF f (jsFloorDiv1000 v) (si + 1)).map
        (fun parts => parts ++ chunkPartD v si)
    else some []

/-- The loop finishes within some number of iterations (from its entry
scale index 0). -/
def wordsWhileTerminates (v : Option JSVal) : Prop :=
  ∃ f, (wordsWhileF f v 0).isSome = true

/-- The loop never finishes: no iteration bound completes it, from any
scale index. -/
def wordsWhileDiverges (v : Option JSVal) : Prop :=
  ∀ (f si : ℕ), wordsWhileF f v si = none

/-! ## Toolkit lemmas: decimal digits -/

theorem natDigitsF_congr : ∀ {f g n : ℕ}, n < f → n < g → natDigitsF f n = natDigitsF g n := by
  intro f
  induction f with
  | zero => intro g n h; omega
  | succ f ih =>
    intro g n hf hg
    cases g with
    | zero => omega
    | succ g =>
      show natDigitsF (f + 1) n = natDigitsF (g + 1) n
      simp only [natDigitsF]
      by_cases h10 : n < 10
      · simp [h10]
      · have hlt : n / 10 < n := Nat.div_lt_self (by omega) (by omega)
        simp only [h10, if_false]
        rw [@ih g (n / 10) (by omega) (by omega)]

theorem natDigits_eq (n : ℕ) :
    natDigits n =
      if n < 10 then [Nat.digitChar n]
      else natDigits (n / 10) ++ [Nat.digitChar (n % 10)] := by
  show natDigitsF (n + 1) n = _
  simp only [natDigitsF]
  by_cases h10 : n < 10
  · simp [h10]
  · have hlt : n / 10 < n := Nat.div_lt_self (by omega) (by omega)
    simp only [h10, if_false]
    rw [natDigitsF_congr (by omega) (Nat.lt_succ_self _)]
    rfl

theorem digitVal_digitChar {d : ℕ} (h : d < 10) : digitVal (Nat.digitChar d) = d := by
  interval_cases d <;> rfl

theorem isDigit_digitChar {d : ℕ} (h : d < 10) : (Nat.digitChar d).isDigit = true := by
  interval_cases d <;> rfl

theorem digitsVal_append (l : List Char) (c : Char) :
    digitsVal (l ++ [c]) = 10 * digitsVal l + digitVal c := by
  simp [digitsVal, List.foldl_append]

theorem digitsVal_natDigits (n : ℕ) : digitsVal (natDigits n) = n := by
  induction n using Nat.strong_induction_on with
  | _ n ih =>
    rw [natDigits_eq]
    by_cases h10 : n < 10
    · simp only [h10, if_true]
      show 10 * 0 + digitVal (Nat.digitChar n) = n
      rw [digitVal_digitChar h10]
      omega
    · have hlt : n / 10 < n := Nat.div_lt_self (by omega) (by omega)
      simp only [h10, if_false]
      rw [digitsVal_append, ih _ hlt, digitVal_digitChar (Nat.mod_lt _ (by omega))]
      omega

theorem natDigits_ne_nil (n : ℕ) : natDigits n ≠ [] := by
  rw [natDigits_eq]
  split <;> simp

theorem natDigits_isDigit (n : ℕ) : ∀ c ∈ natDigits n, c.isDigit = true := by
  induction n using Nat.strong_induction_on with
  | _ n ih =>
    rw [natDigits_eq]
    by_cases h10 : n < 10
    · simp only [h10, if_true, List.mem_singleton]
      intro c hc
      subst hc
      exact isDigit_digitChar h10
    · have hlt : n / 10 < n := Nat.div_lt_self (by omega) (by omega)
      simp only [h10, if_false]
      intro c hc
      rcases List.mem_append.1 hc with h | h
      · exact ih _ hlt c h
      · rw [List.mem_singleton.1 h]
        exact isDigit_digitChar (Nat.mod_lt _ (by omega))

/-! ## Toolkit lemmas: lists -/

theorem takeWhile_eq_self_of_all {p : Char → Bool} :
    ∀ {l : List Char}, (∀ c ∈ l, p c = true) → l.takeWhile p = l := by
  intro l
  induction l with
  | nil => intro _; rfl
  | cons c t ih =>
    intro h
    rw [List.takeWhile_cons, h c (List.mem_cons_self _ _)]
    simp [ih fun x hx => h x (List.mem_cons_of_mem _ hx)]

theorem dropWhile_eq_nil_of_all {p : Char → Bool} :
    ∀ {l : List Char}, (∀ c ∈ l, p c = true) → l.dropWhile p = [] := by
  intro l
  induction l with
  | nil => intro _; rfl
  | cons c t ih =>
    intro h
    rw [List.dropWhile_cons, h c (List.mem_cons_self _ _)]
    simp [ih fun x hx => h x (List.mem_cons_of_mem _ hx)]

/-! ## Toolkit lemmas: parseFloat on well-formed number parts -/

theorem parseFloatQ_eq_mag {l : List Char} (h : l.head? ≠ some '-') :
    parseFloatQ l = parseFloatMag l := by
  unfold parseFloatQ
  rw [if_neg h]

theorem numPartOk_head_digit {l : List Char} (h : numPartOk l = true) :
    ∃ c t, l = c :: t ∧ c.isDigit = true := by
  unfold numPartOk at h
  rcases Bool.and_eq_true_iff.1 h with ⟨h1, _⟩
  cases l with
  | nil => simp at h1
  | cons c t =>
    refine ⟨c, t, rfl, ?_⟩
    by_contra hc
    rw [List.takeWhile_cons] at h1
    simp only [Bool.not_eq_true] at hc
    rw [hc] at h1
    simp at h1

theorem numPartOk_parseFloat {l : List Char} (h : numPartOk l = true) :
    parseFloatQ l = some (numPartVal l) := by
  obtain ⟨c, t, hl, hc⟩ := numPartOk_head_digit h
  have hdash : l.head? ≠ some '-' := by
    rw [hl]
    simp only [List.head?_cons, ne_eq, Option.some.injEq]
    intro hceq
    rw [hceq] at hc
    simp [Char.isDigit] at hc
  rw [parseFloatQ_eq_mag hdash]
  unfold numPartOk at h
  rcases Bool.and_eq_true_iff.1 h with ⟨h1, h2⟩
  have hne : ¬ l.takeWhile Char.isDigit = [] := by
    intro hnil; rw [hnil] at h1; simp at h1
  unfold parseFloatMag numPartVal
  by_cases hdot : (l.dropWhile Char.isDigit).head? = some '.'
  · rw [if_pos hdot]
    have : ¬ (l.takeWhile Char.isDigit = [] ∧
        ((l.dropWhile Char.isDigit).drop 1).takeWhile Char.isDigit = []) := by
      intro ⟨ha, _⟩; exact hne ha
    rw [if_neg this]
  · rw [if_neg hdot, if_neg hne]
    have hemp : l.dropWhile Char.isDigit = [] := by
      rcases Bool.or_eq_true_iff.1 h2 with he | hh
      · exact List.isEmpty_iff.1 he
      · exact absurd (eq_of_beq ((Bool.and_eq_true_iff.1 hh).1)) hdot
    rw [hemp]
    simp [digitsVal]

/-! ## Toolkit lemmas: the suffix split of the shorthand grammar -/

theorem contains_suffix_of_digit {x : Char} (hx : x.isDigit = true) :
    suffixChars.contains x = false := by
  by_contra hcon
  rw [Bool.not_eq_false] at hcon
  have hmem : x ∈ suffixChars := List.elem_iff.1 hcon
  fin_cases hmem <;> exact absurd hx (by decide)

theorem numPartOk_getLast {l : List Char} (h : numPartOk l = true) {x : Char}
    (hx : l.getLast? = some x) : suffixChars.contains x = false := by
  unfold numPartOk at h
  rcases Bool.and_eq_true_iff.1 h with ⟨h1, h2⟩
  have hxmem : x ∈ l := List.mem_of_getLast?_eq_some hx
  have hsplit := List.takeWhile_append_dropWhile (p := Char.isDigit) (l := l)
  by_cases hemp : l.dropWhile Char.isDigit = []
  · -- the whole list is its digit run
    have hmem2 := hxmem
    rw [← hsplit, hemp, List.append_nil] at hmem2
    exact contains_suffix_of_digit (List.mem_takeWhile_imp hmem2)
  · -- the rest starts with a dot followed by digits
    have hor := Bool.or_eq_true_iff.1 h2
    rcases hor with he | hh
    · exact absurd (List.isEmpty_iff.1 he) hemp
    · rcases Bool.and_eq_true_iff.1 hh with ⟨hhd, hall⟩
      have hdot := eq_of_beq hhd
      rcases hr : l.dropWhile Char.isDigit with _ | ⟨d, r⟩
      · exact absurd hr hemp
      · have hd : d = '.' := by rw [hr] at hdot; simpa using hdot
        subst hd
        rw [hr] at hall
        simp only [List.drop_succ_cons, List.drop_zero] at hall
        -- the last element of l is the last element of takeWhile ++ '.' :: r
        rw [← hsplit, hr] at hx
        rw [List.getLast?_append] at hx
        have hlast : ('.' :: r).getLast? = some x := by
          rcases hg : ('.' :: r).getLast? with _ | y
          · simp [List.getLast?_eq_none_iff] at hg
          · rw [hg] at hx
            simp only [Option.or_some] at hx
            exact hx
        have hxm : x ∈ '.' :: r := List.mem_of_getLast?_eq_some hlast
        rcases List.mem_cons.1 hxm with hxe | hxr
        · subst hxe; decide
        · exact contains_suffix_of_digit (List.all_eq_true.1 hall x hxr)

theorem splitSuffix_of_numPartOk {l : List Char} (h : numPartOk l = true) :
    splitSuffix l = (l, none) := by
  unfold splitSuffix
  rcases hg : l.getLast? with _ | x
  · rfl
  · show (if suffixChars.contains x = true then (l.dropLast, some x) else (l, none)) = (l, none)
    rw [if_neg (fun hcon => by
      rw [numPartOk_getLast h hg] at hcon
      exact Bool.false_ne_true hcon)]

theorem splitSuffix_concat (np : List Char) {c : Char} (hc : c ∈ suffixChars) :
    splitSuffix (np ++ [c]) = (np, some c) := by
  unfold splitSuffix
  rw [List.getLast?_concat]
  have hct : suffixChars.contains c = true := List.elem_iff.2 hc
  show (if suffixChars.contains c = true then ((np ++ [c]).dropLast, some c)
      else (np ++ [c], none)) = (np, some c)
  rw [if_pos hct, List.dropLast_concat]

theorem splitSuffix_fst_mem {l : List Char} {x : Char}
    (hx : x ∈ (splitSuffix l).1) : x ∈ l := by
  unfold splitSuffix at hx
  rcases hg : l.getLast? with _ | c
  · rw [hg] at hx; exact hx
  · rw [hg] at hx
    by_cases hcon : suffixChars.contains c = true
    · simp only [hcon, if_true] at hx
      exact (List.dropLast_sublist l).subset hx
    · rw [Bool.not_eq_true] at hcon
      simp only [hcon] at hx
      simpa using hx

theorem splitSuffix_snd_mem {l : List Char} {c : Char}
    (hc : (splitSuffix l).2 = some c) : c ∈ suffixChars := by
  unfold splitSuffix at hc
  rcases hg : l.getLast? with _ | d
  · rw [hg] at hc; simp at hc
  · rw [hg] at hc
    by_cases hcon : suffixChars.contains d = true
    · simp only [hcon, if_true] at hc
      obtain rfl : d = c := by simpa using hc
      exact List.elem_iff.1 hcon
    · rw [Bool.not_eq_true] at hcon
      simp only [hcon] at hc
      simp at hc

/-! ## Toolkit lemmas: suffix multipliers -/

theorem lookup_mult_eq {c : Char} (hc : c ∈ suffixChars) :
    (multPairs.lookup c).getD 1 = multOf (some c) := by
  fin_cases hc <;> rfl

theorem multOf_pos : ∀ s : Option Char, 0 < multOf s := by
  intro s
  cases s with
  | none => norm_num [multOf]
  | some c =>
    simp only [multOf]
    split_ifs <;> norm_num

/-! ## Toolkit lemmas: shorthandCore -/

theorem shorthandCore_append (np : List Char) (sfx : Option Char)
    (hnp : numPartOk np = true)
    (hs : ∀ c, sfx = some c → c ∈ suffixChars) :
    shorthandCore (np ++ sfx.toList) =
      some (numPartVal np * multOf sfx) := by
  cases sfx with
  | none =>
    unfold shorthandCore
    rw [Option.toList_none, List.append_nil, splitSuffix_of_numPartOk hnp]
    simp only [if_pos hnp, numPartOk_parseFloat hnp]
    rfl
  | some c =>
    have hcm : c ∈ suffixChars := hs c rfl
    unfold shorthandCore
    rw [Option.toList_some, splitSuffix_concat np hcm]
    simp only [if_pos hnp, numPartOk_parseFloat hnp]
    rw [lookup_mult_eq hcm]

theorem parseFloatMag_nonneg {l : List Char} {q : ℚ}
    (h : parseFloatMag l = some q) : 0 ≤ q := by
  unfold parseFloatMag at h
  split_ifs at h <;>
    first
    | exact Option.noConfusion h
    | (injection h with h2
       rw [← h2]
       positivity)

theorem parseFloatQ_nonneg {l : List Char} {q : ℚ} (hd : '-' ∉ l)
    (h : parseFloatQ l = some q) : 0 ≤ q := by
  have hh : l.head? ≠ some '-' := by
    intro hh
    cases l with
    | nil => simp at hh
    | cons c t =>
      obtain rfl : c = '-' := by simpa using hh
      exact hd (List.mem_cons_self _ _)
  rw [parseFloatQ_eq_mag hh] at h
  exact parseFloatMag_nonneg h

theorem shorthandCore_nonneg {l : List Char} {q : ℚ} (hd : '-' ∉ l)
    (h : shorthandCore l = some q) : 0 ≤ q := by
  unfold shorthandCore at h
  by_cases hok : numPartOk (splitSuffix l).1 = true
  · rw [if_pos hok] at h
    rcases hp : parseFloatQ (splitSuffix l).1 with _ | b
    · rw [hp] at h; simp at h
    · rw [hp] at h
      injection h with h2
      rw [← h2]
      have hb : 0 ≤ b :=
        parseFloatQ_nonneg (fun hm => hd (splitSuffix_fst_mem hm)) hp
      rcases hs : (splitSuffix l).2 with _ | c
      · simpa using hb
      · have hcm := splitSuffix_snd_mem hs
        show 0 ≤ b * (multPairs.lookup c).getD 1
        rw [lookup_mult_eq hcm]
        exact mul_nonneg hb (le_of_lt (multOf_pos (some c)))
  · rw [if_neg hok] at h
    simp at h

/-! ## Claims about parseShorthand -/

/-- C4: for every input accepted by the shorthand grammar (after cleaning, a
number part `\d+\.?\d*` optionally followed by one suffix letter),
`parseShorthand` returns the parsed decimal multiplied by the suffix's
magnitude — no suffix gives 1, K 1e3, M 1e6, B 1e9, T 1e12, matched
case-insensitively; in particular `parseShorthand "2.5M" = 2500000`,
`parseShorthand "1K" = 1000`, `parseShorthand "1.5" = 1.5`, and
`parseShorthand "abc"` is a no-match. -/
theorem claim4 :
    (∀ (s : String) (np : List Char) (sfx : Option Char),
      s.data.filter keepShort = np ++ sfx.toList →
      (∀ c, sfx = some c → c ∈ suffixChars) →
      numPartOk np = true →
      parseShorthand s = some (numPartVal np * multOf sfx)) ∧
    parseShorthand "2.5M" = some 2500000 ∧
    parseShorthand "1K" = some 1000 ∧
    parseShorthand "1.5" = some (3 / 2) ∧
    parseShorthand "abc" = none := by
  refine ⟨?_, by decide, by decide, by decide, by decide⟩
  intro s np sfx hclean hs hnp
  unfold parseShorthand
  rw [hclean]
  exact shorthandCore_append np sfx hnp hs

theorem claim4_witness :
    parseShorthand "1K" = some (numPartVal ['1'] * multOf (some 'K')) :=
  claim4.1 "1K" ['1'] (some 'K') (by decide)
    (fun c hc => by cases hc; decide) (by decide)

/-- C5: a leading minus sign is removed by the cleaning step, so
`parseShorthand` of a minus-prefixed input equals `parseShorthand` of the
input without the sign, every successful parse is nonnegative (negative
numbers are not representable through this parser), and in particular
`parseShorthand "-1.5K" = 1500`. -/
theorem claim5 :
    (∀ s : String, parseShorthand (String.mk ('-' :: s.data)) = parseShorthand s) ∧
    (∀ (s : String) (q : ℚ), parseShorthand s = some q → 0 ≤ q) ∧
    parseShorthand "-1.5K" = some 1500 := by
  refine ⟨?_, ?_, by decide⟩
  · intro s
    unfold parseShorthand
    show shorthandCore (('-' :: s.data).filter keepShort) = _
    rw [List.filter_cons_of_neg (by decide)]
  · intro s q h
    unfold parseShorthand at h
    refine shorthandCore_nonneg ?_ h
    intro hm
    exact absurd (List.mem_filter.1 hm).2 (by decide)

theorem claim5_witness :
    parseShorthand (String.mk ('-' :: ("1K").data)) = parseShorthand "1K" ∧
      (0:ℚ) ≤ 1500 :=
  ⟨claim5.1 "1K", claim5.2.1 "-1.5K" 1500 claim5.2.2⟩

/-! ## Toolkit lemmas: floors, jsMod and toFixed on natural numbers -/

theorem string_data_eq {a b : String} (h : a.data = b.data) : a = b := by
  cases a; cases b; exact congrArg String.mk h

theorem floor_natCast_div (m k : ℕ) (hk : 0 < k) :
    ⌊(m : ℚ) / (k : ℚ)⌋ = ((m / k : ℕ) : ℤ) := by
  have hk0 : (0 : ℚ) < (k : ℚ) := by exact_mod_cast hk
  have hdm : (k : ℚ) * ((m / k : ℕ) : ℚ) + ((m % k : ℕ) : ℚ) = (m : ℚ) := by
    exact_mod_cast Nat.div_add_mod m k
  have hlt : ((m % k : ℕ) : ℚ) < (k : ℚ) := by exact_mod_cast Nat.mod_lt m hk
  have hnn : (0 : ℚ) ≤ ((m % k : ℕ) : ℚ) := by positivity
  rw [Int.floor_eq_iff, Int.cast_natCast]
  constructor
  · rw [le_div_iff₀ hk0]
    nlinarith
  · rw [div_lt_iff₀ hk0]
    nlinarith

theorem jsMod_natCast (m k : ℕ) (hk : 0 < k) :
    jsMod (m : ℚ) (k : ℚ) = ((m % k : ℕ) : ℚ) := by
  unfold jsMod
  rw [floor_natCast_div m k hk, Int.cast_natCast]
  have hdm : (k : ℚ) * ((m / k : ℕ) : ℚ) + ((m % k : ℕ) : ℚ) = (m : ℚ) := by
    exact_mod_cast Nat.div_add_mod m k
  linarith

theorem toNat_floor_natCast_div (m k : ℕ) (hk : 0 < k) :
    (⌊(m : ℚ) / (k : ℚ)⌋).toNat = m / k := by
  rw [floor_natCast_div m k hk, Int.toNat_ofNat]

theorem floor_natCast_add_half (q : ℕ) : ⌊(q : ℚ) + 1 / 2⌋ = (q : ℤ) := by
  rw [Int.floor_eq_iff]
  constructor
  · push_cast; linarith
  · push_cast; linarith

theorem toFixedQ_natCast (q : ℕ) : toFixedQ (q : ℚ) 0 = natDigitsStr q := by
  unfold toFixedQ
  rw [if_pos rfl]
  have h : (q : ℚ) * 10 ^ (0:ℕ) + 1 / 2 = (q : ℚ) + 1 / 2 := by norm_num
  rw [h, floor_natCast_add_half, Int.toNat_ofNat]

/-! ## Toolkit lemmas: digit strings through the shorthand pipeline -/

theorem keepShort_of_digit {c : Char} (hc : c.isDigit = true) :
    keepShort c = true := by
  unfold keepShort
  rw [hc]
  rfl

theorem keepShort_of_suffix {c : Char} (hc : c ∈ suffixChars) :
    keepShort c = true := by
  fin_cases hc <;> rfl

theorem filter_keepShort_natDigits (q : ℕ) :
    (natDigits q).filter keepShort = natDigits q :=
  List.filter_eq_self.2 fun c hc => keepShort_of_digit (natDigits_isDigit q c hc)

theorem numPartOk_natDigits (q : ℕ) : numPartOk (natDigits q) = true := by
  unfold numPartOk
  rw [takeWhile_eq_self_of_all (natDigits_isDigit q),
    dropWhile_eq_nil_of_all (natDigits_isDigit q)]
  have hne := natDigits_ne_nil q
  simp [hne]

theorem numPartVal_natDigits (q : ℕ) : numPartVal (natDigits q) = (q : ℚ) := by
  unfold numPartVal
  rw [takeWhile_eq_self_of_all (natDigits_isDigit q),
    dropWhile_eq_nil_of_all (natDigits_isDigit q), digitsVal_natDigits]
  norm_num [digitsVal]

theorem parseShorthand_digits_suffix (q : ℕ) {L : Char} (hL : L ∈ suffixChars) :
    parseShorthand (String.mk (natDigits q ++ [L])) =
      some ((q : ℚ) * multOf (some L)) := by
  unfold parseShorthand
  show shorthandCore ((natDigits q ++ [L]).filter keepShort) = _
  rw [List.filter_append, filter_keepShort_natDigits,
    List.filter_cons_of_pos (keepShort_of_suffix hL), List.filter_nil]
  have h := shorthandCore_append (natDigits q) (some L) (numPartOk_natDigits q)
    (fun c hc => by cases hc; exact hL)
  rw [Option.toList_some] at h
  rw [h, numPartVal_natDigits]

/-! ## Toolkit lemmas: numberToShorthand on exact scale multiples -/

theorem branch_exact (q s : ℕ) (hq : 0 < q) (hs : 0 < s) (sq : ℚ)
    (hsq : sq = (s : ℚ)) (L : String) :
    signStr ((q * s : ℕ) : ℚ) ++
      toFixedQ (((q * s : ℕ) : ℚ) / sq)
        (if jsMod ((q * s : ℕ) : ℚ) sq = 0 then 0 else 1) ++ L =
    String.mk (natDigits q ++ L.data) := by
  subst hsq
  have hpos : (0 : ℚ) < ((q * s : ℕ) : ℚ) := by exact_mod_cast Nat.mul_pos hq hs
  have hs0 : ((s : ℕ) : ℚ) ≠ 0 := by
    exact_mod_cast Nat.pos_iff_ne_zero.1 hs
  have hdiv : ((q * s : ℕ) : ℚ) / (s : ℚ) = (q : ℚ) := by
    push_cast
    field_simp
  rw [jsMod_natCast (q * s) s hs, Nat.mul_mod_left, Nat.cast_zero, if_pos rfl,
    hdiv, toFixedQ_natCast]
  unfold signStr
  rw [if_neg (not_lt.2 hpos.le)]
  apply string_data_eq
  simp [natDigitsStr]

theorem numberToShorthand_exactK (q : ℕ) (h1 : 1 ≤ q) (h2 : q < 1000) :
    numberToShorthand ((q * 1000 : ℕ) : ℚ) = String.mk (natDigits q ++ ['K']) := by
  have hq : (1 : ℚ) ≤ (q : ℚ) := by exact_mod_cast h1
  have hq' : (q : ℚ) < 1000 := by exact_mod_cast h2
  have hcast : ((q * 1000 : ℕ) : ℚ) = (q : ℚ) * 1000 := by push_cast; ring
  have hpos : (0 : ℚ) < ((q * 1000 : ℕ) : ℚ) := by rw [hcast]; nlinarith
  have habs : |((q * 1000 : ℕ) : ℚ)| = ((q * 1000 : ℕ) : ℚ) := abs_of_pos hpos
  unfold numberToShorthand
  rw [if_neg (ne_of_gt hpos), habs]
  rw [if_neg (by rw [hcast]; exact not_le.2 (by nlinarith)),
    if_neg (by rw [hcast]; exact not_le.2 (by nlinarith)),
    if_neg (by rw [hcast]; exact not_le.2 (by nlinarith)),
    if_pos (by rw [hcast]; nlinarith)]
  exact branch_exact q 1000 (by omega) (by norm_num) 1000 (by norm_num) "K"

theorem numberToShorthand_exactM (q : ℕ) (h1 : 1 ≤ q) (h2 : q < 1000) :
    numberToShorthand ((q * 1000000 : ℕ) : ℚ) =
      String.mk (natDigits q ++ ['M']) := by
  have hq : (1 : ℚ) ≤ (q : ℚ) := by exact_mod_cast h1
  have hq' : (q : ℚ) < 1000 := by exact_mod_cast h2
  have hcast : ((q * 1000000 : ℕ) : ℚ) = (q : ℚ) * 1000000 := by push_cast; ring
  have hpos : (0 : ℚ) < ((q * 1000000 : ℕ) : ℚ) := by rw [hcast]; nlinarith
  have habs : |((q * 1000000 : ℕ) : ℚ)| = ((q * 1000000 : ℕ) : ℚ) := abs_of_pos hpos
  unfold numberToShorthand
  rw [if_neg (ne_of_gt hpos), habs]
  rw [if_neg (by rw [hcast]; exact not_le.2 (by nlinarith)),
    if_neg (by rw [hcast]; exact not_le.2 (by nlinarith)),
    if_pos (by rw [hcast]; nlinarith)]
  exact branch_exact q 1000000 (by omega) (by norm_num) 1000000 (by norm_num) "M"

theorem numberToShorthand_exactB (q : ℕ) (h1 : 1 ≤ q) (h2 : q < 1000) :
    numberToShorthand ((q * 1000000000 : ℕ) : ℚ) =
      String.mk (natDigits q ++ ['B']) := by
  have hq : (1 : ℚ) ≤ (q : ℚ) := by exact_mod_cast h1
  have hq' : (q : ℚ) < 1000 := by exact_mod_cast h2
  have hcast : ((q * 1000000000 : ℕ) : ℚ) = (q : ℚ) * 1000000000 := by
    push_cast; ring
  have hpos : (0 : ℚ) < ((q * 1000000000 : ℕ) : ℚ) := by rw [hcast]; nlinarith
  have habs : |((q * 1000000000 : ℕ) : ℚ)| = ((q * 1000000000 : ℕ) : ℚ) :=
    abs_of_pos hpos
  unfold numberToShorthand
  rw [if_neg (ne_of_gt hpos), habs]
  rw [if_neg (by rw [hcast]; exact not_le.2 (by nlinarith)),
    if_pos (by rw [hcast]; nlinarith)]
  exact branch_exact q 1000000000 (by omega) (by norm_num) 1000000000
    (by norm_num) "B"

/-! ## Claim C3 -/

/-- C3 (counterexample): the round trip fails as originally stated, in two
independent ways — a negative multiple of an applicable scale loses its sign
(`numberToShorthand (-5000) = "-5K"` but `parseShorthand "-5K" = 5000`), and a
positive multiple of a smaller applicable scale that is not a multiple of the
selected largest scale is rounded to one decimal
(`numberToShorthand 1234000 = "1.2M"`, which parses back to `1200000`). -/
theorem claim3_cex :
    parseShorthand (numberToShorthand (-5000 : ℚ)) ≠ some (-5000 : ℚ) ∧
    parseShorthand (numberToShorthand (1234000 : ℚ)) ≠ some (1234000 : ℚ) := by
  constructor
  · decide
  · decide

/-- C3 (amended): for every nonnegative integer below 1e12 that is a multiple
of the largest applicable scale — that is, every `n = q * 10 ^ e` with
`1 ≤ q < 1000` and `e ∈ {3, 6, 9}` — the round trip
`parseShorthand (numberToShorthand n) = n` holds. -/
theorem claim3 : ∀ (q e : ℕ), 1 ≤ q → q < 1000 → (e = 3 ∨ e = 6 ∨ e = 9) →
    parseShorthand (numberToShorthand ((q * 10 ^ e : ℕ) : ℚ)) =
      some ((q * 10 ^ e : ℕ) : ℚ) := by
  intro q e h1 h2 he
  rcases he with rfl | rfl | rfl
  · rw [show (10 : ℕ) ^ 3 = 1000 from by norm_num,
      numberToShorthand_exactK q h1 h2,
      parseShorthand_digits_suffix q (by decide : 'K' ∈ suffixChars)]
    congr 1
    show (q : ℚ) * 1000 = _
    push_cast
    ring
  · rw [show (10 : ℕ) ^ 6 = 1000000 from by norm_num,
      numberToShorthand_exactM q h1 h2,
      parseShorthand_digits_suffix q (by decide : 'M' ∈ suffixChars)]
    congr 1
    show (q : ℚ) * 1000000 = _
    push_cast
    ring
  · rw [show (10 : ℕ) ^ 9 = 1000000000 from by norm_num,
      numberToShorthand_exactB q h1 h2,
      parseShorthand_digits_suffix q (by decide : 'B' ∈ suffixChars)]
    congr 1
    show (q : ℚ) * 1000000000 = _
    push_cast
    ring

theorem claim3_witness :
    1 ≤ 5 ∧ 5 < 1000 ∧
      parseShorthand (numberToShorthand ((5 * 10 ^ 3 : ℕ) : ℚ)) =
        some ((5 * 10 ^ 3 : ℕ) : ℚ) :=
  ⟨by norm_num, by norm_num, claim3 5 3 (by norm_num) (by norm_num) (Or.inl rfl)⟩

/-! ## Claim C6 -/

/-- C6: `numberToShorthand` behaves as the specification words it — zero maps
to "0"; otherwise the largest applicable scale of the descending table
T/B/M/K is selected by the absolute value, the value is divided by the scale
and rendered with zero decimals exactly when the division leaves no
remainder and one decimal otherwise, the scale letter is appended and a
single minus sign is prefixed for negative inputs; absolute values below
1000 render via plain decimal string conversion.  In particular
`numberToShorthand 1500 = "1.5K"`, `numberToShorthand 1000 = "1K"`,
`numberToShorthand 999 = "999"`, `numberToShorthand (-2500000) = "-2.5M"`. -/
theorem claim6 :
    (∀ x : ℚ, numberToShorthand x = spec_numberToShorthand x) ∧
    numberToShorthand 1500 = "1.5K" ∧
    numberToShorthand 1000 = "1K" ∧
    numberToShorthand 999 = "999" ∧
    numberToShorthand (-2500000 : ℚ) = "-2.5M" := by
  refine ⟨?_, by decide, by decide, by decide, by decide⟩
  intro x
  unfold numberToShorthand spec_numberToShorthand scaleTable
  by_cases h0 : x = 0
  · rw [if_pos h0, if_pos h0]
  · rw [if_neg h0, if_neg h0]
    by_cases h12 : (1000000000000 : ℚ) ≤ |x|
    · rw [if_pos h12, List.find?_cons_of_pos _ (by simpa using h12)]
      rfl
    · rw [if_neg h12, List.find?_cons_of_neg _ (by simpa using h12)]
      by_cases h9 : (1000000000 : ℚ) ≤ |x|
      · rw [if_pos h9, List.find?_cons_of_pos _ (by simpa using h9)]
        rfl
      · rw [if_neg h9, List.find?_cons_of_neg _ (by simpa using h9)]
        by_cases h6 : (1000000 : ℚ) ≤ |x|
        · rw [if_pos h6, List.find?_cons_of_pos _ (by simpa using h6)]
          rfl
        · rw [if_neg h6, List.find?_cons_of_neg _ (by simpa using h6)]
          by_cases h3 : (1000 : ℚ) ≤ |x|
          · rw [if_pos h3, List.find?_cons_of_pos _ (by simpa using h3)]
            rfl
          · rw [if_neg h3, List.find?_cons_of_neg _ (by simpa using h3)]
            rfl

/-! ## Toolkit lemmas: the words loop and its chunk decomposition -/

theorem wordsLoopF_congr : ∀ {f g n si : ℕ}, n ≤ f → n ≤ g →
    wordsLoopF f n si = wordsLoopF g n si := by
  intro f
  induction f with
  | zero =>
    intro g n si hf hg
    have hn : n = 0 := by omega
    subst hn
    cases g with
    | zero => rfl
    | succ g => simp [wordsLoopF]
  | succ f ih =>
    intro g n si hf hg
    cases g with
    | zero =>
      have hn : n = 0 := by omega
      subst hn
      simp [wordsLoopF]
    | succ g =>
      show wordsLoopF (f + 1) n si = wordsLoopF (g + 1) n si
      simp only [wordsLoopF]
      by_cases h0 : n = 0
      · simp [h0]
      · have hlt : n / 1000 < n := Nat.div_lt_self (Nat.pos_of_ne_zero h0) (by norm_num)
        simp only [h0, if_false]
        rw [@ih g (n / 1000) (si + 1) (by omega) (by omega)]

theorem wordsLoop_eq (n si : ℕ) :
    wordsLoop n si =
      if n = 0 then []
      else
        wordsLoop (n / 1000) (si + 1) ++
          (if 0 < n % 1000 then
            [if 0 < si then
              convertHundredsQ ((n % 1000 : ℕ) : ℚ) ++ " " ++ jsIxN SCALES si
            else convertHundredsQ ((n % 1000 : ℕ) : ℚ)]
          else []) := by
  show wordsLoopF n n si = _
  cases n with
  | zero => rfl
  | succ n =>
    show wordsLoopF (n + 1) (n + 1) si = _
    simp only [wordsLoopF]
    have h0 : ¬(n + 1 = 0) := by omega
    simp only [h0, if_false]
    rw [wordsLoopF_congr (by
        have := Nat.div_lt_self (show 0 < n + 1 by omega) (show 1 < 1000 by norm_num)
        omega)
      (le_refl ((n + 1) / 1000))]
    rfl

theorem chunksF_congr : ∀ {f g n i : ℕ}, n ≤ f → n ≤ g →
    chunksF f n i = chunksF g n i := by
  intro f
  induction f with
  | zero =>
    intro g n i hf hg
    have hn : n = 0 := by omega
    subst hn
    cases g with
    | zero => rfl
    | succ g => simp [chunksF]
  | succ f ih =>
    intro g n i hf hg
    cases g with
    | zero =>
      have hn : n = 0 := by omega
      subst hn
      simp [chunksF]
    | succ g =>
      show chunksF (f + 1) n i = chunksF (g + 1) n i
      simp only [chunksF]
      by_cases h0 : n = 0
      · simp [h0]
      · have hlt : n / 1000 < n := Nat.div_lt_self (Nat.pos_of_ne_zero h0) (by norm_num)
        simp only [h0, if_false]
        rw [@ih g (n / 1000) (i + 1) (by omega) (by omega)]

theorem chunksIdx_eq (n i : ℕ) :
    chunksIdx n i =
      if n = 0 then [] else (i, n % 1000) :: chunksIdx (n / 1000) (i + 1) := by
  show chunksF n n i = _
  cases n with
  | zero => rfl
  | succ n =>
    show chunksF (n + 1) (n + 1) i = _
    simp only [chunksF]
    have h0 : ¬(n + 1 = 0) := by omega
    simp only [h0, if_false]
    rw [chunksF_congr (by
        have := Nat.div_lt_self (show 0 < n + 1 by omega) (show 1 < 1000 by norm_num)
        omega)
      (le_refl ((n + 1) / 1000))]
    rfl

theorem wordsLoop_eq_chunks (n : ℕ) : ∀ si : ℕ, 1 ≤ si →
    wordsLoop n si =
      (((chunksIdx n si).filter fun p => decide (p.2 ≠ 0)).reverse).map renderChunk := by
  induction n using Nat.strong_induction_on with
  | _ n ih =>
    intro si hsi
    rw [wordsLoop_eq, chunksIdx_eq]
    by_cases h0 : n = 0
    · simp [h0]
    · rw [if_neg h0, if_neg h0]
      rw [ih (n / 1000) (Nat.div_lt_self (Nat.pos_of_ne_zero h0) (by norm_num))
        (si + 1) (by omega)]
      by_cases hc : n % 1000 = 0
      · rw [List.filter_cons_of_neg (by simpa using hc), if_neg (by omega)]
        simp
      · rw [List.filter_cons_of_pos (by simpa using hc),
          List.reverse_cons, List.map_append, if_pos (Nat.pos_of_ne_zero hc)]
        congr 1
        rw [if_pos (show 0 < si from hsi)]
        unfold renderChunk
        rw [List.map_cons, List.map_nil]
        rw [if_neg (show ¬((si, n % 1000).1 = 0) from by omega)]

theorem numberToWords_natCast_pos (n : ℕ) (hn : 0 < n) :
    numberToWords (n : ℚ) = spec_wordsOfNat n := by
  have hne : ((n : ℚ)) ≠ 0 := by exact_mod_cast hn.ne'
  have hnneg : ¬((n : ℚ) < 0) := by
    rw [not_lt]
    positivity
  unfold numberToWords
  rw [if_neg hne, if_neg hnneg]
  unfold numberToWordsAux
  rw [show (1000 : ℚ) = ((1000 : ℕ) : ℚ) from by norm_num]
  rw [jsMod_natCast n 1000 (by norm_num), toNat_floor_natCast_div n 1000 (by norm_num)]
  unfold spec_wordsOfNat
  rw [chunksIdx_eq, if_neg hn.ne', wordsLoop_eq_chunks (n / 1000) 1 (le_refl 1)]
  by_cases hc : n % 1000 = 0
  · rw [List.filter_cons_of_neg (by simpa using hc),
      if_neg (by simp [hc])]
    simp
  · rw [List.filter_cons_of_pos (by simpa using hc), List.reverse_cons,
      List.map_append,
      if_pos (show (0 : ℚ) < ((n % 1000 : ℕ) : ℚ) from by
        exact_mod_cast Nat.pos_of_ne_zero hc)]
    congr 1

/-! ## Claim C7 -/

/-- C7: `numberToWords` maps 0 to "zero", maps every negative number to
"negative " followed by the words of its absolute value, and on positive
integers decomposes into base-1000 chunks assembled most significant first,
space-joined, omitting chunks that are exactly zero; in particular
`numberToWords 1000000 = "one million"`, `numberToWords (-5) = "negative
five"`, and `numberToWords 1000000001` does not contain the word
"thousand". -/
theorem claim7 :
    numberToWords 0 = "zero" ∧
    (∀ x : ℚ, x < 0 → numberToWords x = "negative " ++ numberToWords (-x)) ∧
    (∀ n : ℕ, 0 < n → numberToWords (n : ℚ) = spec_wordsOfNat n) ∧
    numberToWords 1000000 = "one million" ∧
    numberToWords (-5 : ℚ) = "negative five" ∧
    ¬ "thousand".data <:+: (numberToWords 1000000001).data := by
  refine ⟨by decide, ?_, numberToWords_natCast_pos, by decide, by decide, by decide⟩
  intro x hx
  unfold numberToWords
  rw [if_neg hx.ne, if_pos hx]
  have hnx : ¬(-x = 0) := by
    intro h
    rw [neg_eq_zero] at h
    exact hx.ne h
  have hnx2 : ¬(-x < 0) := by linarith
  rw [if_neg hnx, if_neg hnx2]

theorem claim7_witness :
    ((-3 : ℚ) < 0 ∧ numberToWords (-3 : ℚ) = "negative " ++ numberToWords (3 : ℚ)) ∧
      (0 < 12 ∧ numberToWords ((12 : ℕ) : ℚ) = spec_wordsOfNat 12) :=
  ⟨⟨by norm_num, claim7.2.1 (-3 : ℚ) (by norm_num)⟩,
   ⟨by norm_num, claim7.2.2.1 12 (by norm_num)⟩⟩

/-! ## Toolkit lemmas: fractional chunks and the undefined token -/

theorem jsMod_nonneg (a b : ℚ) (hb : 0 < b) : 0 ≤ jsMod a b := by
  unfold jsMod
  have h1 : (⌊a / b⌋ : ℚ) ≤ a / b := Int.floor_le _
  have h2 : b * (⌊a / b⌋ : ℚ) ≤ b * (a / b) := by
    exact mul_le_mul_of_nonneg_left h1 hb.le
  rw [mul_div_cancel₀ a hb.ne'] at h2
  linarith

theorem jsMod_lt (a b : ℚ) (hb : 0 < b) : jsMod a b < b := by
  unfold jsMod
  have h1 : a / b < (⌊a / b⌋ : ℚ) + 1 := Int.lt_floor_add_one _
  have h2 : b * (a / b) < b * ((⌊a / b⌋ : ℚ) + 1) := by
    exact mul_lt_mul_of_pos_left h1 hb
  rw [mul_div_cancel₀ a hb.ne'] at h2
  linarith

theorem jsMod_not_int {a b : ℚ} (hb : ∃ kz : ℤ, b = (kz : ℚ))
    (h : ∀ z : ℤ, a ≠ (z : ℚ)) : ∀ z : ℤ, jsMod a b ≠ (z : ℚ) := by
  obtain ⟨kz, rfl⟩ := hb
  intro z hz
  apply h (z + kz * ⌊a / (kz : ℚ)⌋)
  unfold jsMod at hz
  push_cast
  linarith

theorem jsMod_pos_of_not_int {a b : ℚ} (hbpos : 0 < b)
    (hb : ∃ kz : ℤ, b = (kz : ℚ)) (h : ∀ z : ℤ, a ≠ (z : ℚ)) :
    0 < jsMod a b := by
  have h0 := jsMod_nonneg a b hbpos
  have hne : jsMod a b ≠ 0 := by
    intro he
    apply jsMod_not_int hb h 0
    rw [he]
    norm_num
  exact h0.lt_of_ne (Ne.symm hne)

theorem jsIx_not_int {arr : List String} {q : ℚ} (h : ∀ z : ℤ, q ≠ (z : ℚ)) :
    jsIx arr q = "undefined" := by
  unfold jsIx
  rw [if_neg]
  rintro ⟨hden, _⟩
  exact h q.num ((Rat.den_eq_one_iff q).1 hden).symm

theorem joinSpace_concat_suffix (A : List String) (w : String) :
    w.data <:+ (joinSpace (A ++ [w])).data := by
  induction A with
  | nil => exact List.suffix_refl _
  | cons a A ih =>
    cases A with
    | nil =>
      show w.data <:+ (a ++ " " ++ w).data
      simp only [String.data_append]
      exact List.suffix_append _ _
    | cons b A =>
      show w.data <:+ (a ++ " " ++ joinSpace ((b :: A) ++ [w])).data
      simp only [String.data_append]
      exact ih.trans (List.suffix_append _ _)

theorem convertHundredsQ_undefined {c : ℚ} (hpos : 0 < c)
    (hni : ∀ z : ℤ, c ≠ (z : ℚ)) :
    "undefined".data <:+ (convertHundredsQ c).data := by
  simp only [convertHundredsQ]
  set n1 : ℚ := if 100 ≤ c then jsMod c 100 else c with hn1
  have hn1ni : ∀ z : ℤ, n1 ≠ (z : ℚ) := by
    rw [hn1]
    split_ifs with h
    · exact jsMod_not_int ⟨100, by norm_num⟩ hni
    · exact hni
  have hn1pos : 0 < n1 := by
    rw [hn1]
    split_ifs with h
    · exact jsMod_pos_of_not_int (by norm_num) ⟨100, by norm_num⟩ hni
    · exact hpos
  by_cases h20 : 20 ≤ n1
  · rw [if_pos h20]
    have hn2ni : ∀ z : ℤ, jsMod n1 10 ≠ (z : ℚ) :=
      jsMod_not_int ⟨10, by norm_num⟩ hn1ni
    have hn2pos : 0 < jsMod n1 10 :=
      jsMod_pos_of_not_int (by norm_num) ⟨10, by norm_num⟩ hn1ni
    rw [if_pos hn2pos, show jsIx ONES (jsMod n1 10) = "undefined" from
      jsIx_not_int hn2ni]
    simp only [String.data_append]
    exact List.suffix_append _ _
  · rw [if_neg h20]
    by_cases h10 : 10 ≤ n1
    · rw [if_pos h10, show jsIx TEENS (n1 - 10) = "undefined" from
        jsIx_not_int (fun z hz => hn1ni (z + 10) (by
          rw [show (((z + 10 : ℤ)) : ℚ) = (z : ℚ) + 10 from by push_cast; ring]
          linarith))]
      simp only [String.data_append]
      exact List.suffix_append _ _
    · rw [if_neg h10, if_pos hn1pos, show jsIx ONES n1 = "undefined" from
        jsIx_not_int hn1ni]
      simp only [String.data_append]
      exact List.suffix_append _ _

/-! ## Claim C9 -/

/-- C9 (counterexample): the fractional part is not truncated — at `x = 1/2`
(truncation toward zero gives 0) the words form is the out-of-table token
"undefined", not the words of the truncated value "zero". -/
theorem claim9_cex :
    ⌊((1 : ℚ) / 2)⌋ = (0 : ℤ) ∧
      numberToWords ((1 : ℚ) / 2) ≠ numberToWords ((0 : ℤ) : ℚ) := by
  constructor
  · decide
  · decide

/-- C9 (amended): for every positive non-integral rational, the fractional
remainder of the least significant base-1000 chunk flows into a word-table
lookup at a non-integral index, so the words form ends with the out-of-table
token "undefined" instead of reflecting the truncated integer part. -/
theorem claim9 : ∀ x : ℚ, 0 < x → x.den ≠ 1 →
    "undefined".data <:+ (numberToWords x).data := by
  intro x hx hden
  have hni : ∀ z : ℤ, x ≠ (z : ℚ) := by
    intro z hz
    rw [hz] at hden
    simp at hden
  unfold numberToWords
  rw [if_neg hx.ne', if_neg (not_lt.2 hx.le)]
  unfold numberToWordsAux
  have hm_ni : ∀ z : ℤ, jsMod x 1000 ≠ (z : ℚ) :=
    jsMod_not_int ⟨1000, by norm_num⟩ hni
  have hm_pos : 0 < jsMod x 1000 :=
    jsMod_pos_of_not_int (by norm_num) ⟨1000, by norm_num⟩ hni
  rw [if_pos hm_pos]
  exact (convertHundredsQ_undefined hm_pos hm_ni).trans
    (joinSpace_concat_suffix _ _)

theorem claim9_witness :
    (0 < ((1 : ℚ) / 2) ∧ ((1 : ℚ) / 2).den ≠ 1) ∧
      "undefined".data <:+ (numberToWords ((1 : ℚ) / 2)).data :=
  ⟨⟨by norm_num, by decide⟩, claim9 ((1 : ℚ) / 2) (by norm_num) (by decide)⟩

/-! ## Toolkit lemmas: trimming and the orchestrator -/

theorem wsChar_not_keepShort (c : Char) (h : wsChar c = true) :
    keepShort c = false := by
  have hm : c ∈ wsList := List.mem_of_elem_eq_true h
  fin_cases hm <;> rfl

theorem wsChar_not_keepFall (c : Char) (h : wsChar c = true) :
    keepFall c = false := by
  have hm : c ∈ wsList := List.mem_of_elem_eq_true h
  fin_cases hm <;> rfl

theorem filter_dropWhile_ws {keep : Char → Bool}
    (hkw : ∀ c, wsChar c = true → keep c = false) :
    ∀ l : List Char, (l.dropWhile wsChar).filter keep = l.filter keep := by
  intro l
  induction l with
  | nil => rfl
  | cons c t ih =>
    rw [List.dropWhile_cons]
    by_cases hw : wsChar c = true
    · rw [if_pos hw, ih, List.filter_cons_of_neg (by simp [hkw c hw])]
    · rw [if_neg hw]

theorem filter_jsTrim {keep : Char → Bool}
    (hkw : ∀ c, wsChar c = true → keep c = false) (l : List Char) :
    (jsTrim l).filter keep = l.filter keep := by
  unfold jsTrim
  rw [List.filter_reverse, filter_dropWhile_ws hkw, List.filter_reverse,
    List.reverse_reverse, filter_dropWhile_ws hkw]

theorem decodedOfTrimmed_jsTrim (l : List Char) :
    decodedOfTrimmed (jsTrim l) = decodedValue l := by
  unfold decodedOfTrimmed decodedValue parseShorthand
  rw [show (String.mk (jsTrim l)).data = jsTrim l from rfl]
  rw [filter_jsTrim wsChar_not_keepShort l, filter_jsTrim wsChar_not_keepFall l]

theorem decodedValue_of_trim_nil {l : List Char} (h : jsTrim l = []) :
    decodedValue l = none := by
  have h1 : l.filter keepShort = [] := by
    rw [← filter_jsTrim wsChar_not_keepShort l, h]
    rfl
  have h2 : l.filter keepFall = [] := by
    rw [← filter_jsTrim wsChar_not_keepFall l, h]
    rfl
  unfold decodedValue
  rw [h1, h2]
  rfl

theorem convertNumber_of_trim_nil {s : String} (h : jsTrim s.data = []) :
    convertNumber s =
      { originalInput := s, numericValue := some 0, shorthandForm := "0",
        wordsForm := "zero", currency := none, isValid := false } := by
  unfold convertNumber
  rw [if_pos (show (jsTrim s.data).isEmpty = true from by rw [h]; rfl)]

theorem convertNumber_of_invalid {s : String} (h : ¬jsTrim s.data = [])
    (hd : decodedOfTrimmed (jsTrim s.data) = none) :
    convertNumber s =
      { originalInput := s, numericValue := some 0, shorthandForm := "0",
        wordsForm := "invalid input",
        currency := extractCurrency (String.mk (jsTrim s.data)),
        isValid := false } := by
  unfold convertNumber
  rw [if_neg (show ¬(jsTrim s.data).isEmpty = true from by
    simpa [List.isEmpty_iff] using h), hd]

theorem convertNumber_of_valid {s : String} (h : ¬jsTrim s.data = []) {v : ℚ}
    (hd : decodedOfTrimmed (jsTrim s.data) = some v) :
    convertNumber s =
      { originalInput := s, numericValue := some v,
        shorthandForm :=
          (match extractCurrency (String.mk (jsTrim s.data)) with
           | some c => String.singleton c
           | none => "") ++ numberToShorthand v,
        wordsForm :=
          numberToWords v ++
            (match (extractCurrency (String.mk (jsTrim s.data))).bind
                (fun c => CURRENCY_MAP.lookup c) with
             | some w => " " ++ w
             | none => ""),
        currency := extractCurrency (String.mk (jsTrim s.data)),
        isValid := true } := by
  unfold convertNumber
  rw [if_neg (show ¬(jsTrim s.data).isEmpty = true from by
    simpa [List.isEmpty_iff] using h), hd]

theorem convertNumber_isValid (s : String) :
    (convertNumber s).isValid = (decodedValue s.data).isSome := by
  by_cases ht : jsTrim s.data = []
  · rw [convertNumber_of_trim_nil ht, decodedValue_of_trim_nil ht]
    rfl
  · rw [← decodedOfTrimmed_jsTrim s.data]
    rcases hd : decodedOfTrimmed (jsTrim s.data) with _ | v
    · rw [convertNumber_of_invalid ht hd]
      rfl
    · rw [convertNumber_of_valid ht hd]
      rfl

theorem decodedValue_insert (a b : List Char) {c : Char}
    (hs : keepShort c = false) (hf : keepFall c = false) :
    decodedValue (a ++ c :: b) = decodedValue (a ++ b) := by
  unfold decodedValue
  rw [List.filter_append, List.filter_append (p := keepShort),
    List.filter_cons_of_neg (by simp [hs]),
    List.filter_append, List.filter_append (p := keepFall),
    List.filter_cons_of_neg (by simp [hf])]

theorem currency_not_kept {c : Char} (h : c ∈ currencySymbols) :
    keepShort c = false ∧ keepFall c = false := by
  have h2 : c ∈ ['$', '€', '£', '¥', '₹', '₽', '₩', '¢'] := h
  fin_cases h2 <;> exact ⟨rfl, rfl⟩

/-! ## Toolkit lemmas: termination and divergence of the words loop -/

theorem wordsWhileF_inf (f : ℕ) : ∀ si : ℕ,
    wordsWhileF f (some (JSVal.inf false)) si = none := by
  induction f with
  | zero => intro si; rfl
  | succ f ih =>
    intro si
    show (if jsGtZero (some (JSVal.inf false)) = true then
        (wordsWhileF f (jsFloorDiv1000 (some (JSVal.inf false))) (si + 1)).map
          (fun parts => parts ++ chunkPartD (some (JSVal.inf false)) si)
      else some []) = none
    rw [if_pos (show jsGtZero (some (JSVal.inf false)) = true from rfl)]
    show (wordsWhileF f (some (JSVal.inf false)) (si + 1)).map _ = none
    rw [ih (si + 1)]
    rfl

theorem jsFloorDiv1000_natCast (m : ℕ) :
    jsFloorDiv1000 (some (JSVal.fin (m : ℚ))) =
      some (JSVal.fin ((m / 1000 : ℕ) : ℚ)) := by
  show some (JSVal.fin ((⌊(m : ℚ) / 1000⌋ : ℤ) : ℚ)) = _
  rw [show (1000 : ℚ) = ((1000 : ℕ) : ℚ) from by norm_num,
    floor_natCast_div m 1000 (by norm_num), Int.cast_natCast]

theorem chunkPartD_nat (m si : ℕ) :
    chunkPartD (some (JSVal.fin (m : ℚ))) si =
      (if 0 < m % 1000 then
        [if 0 < si then
          convertHundredsQ ((m % 1000 : ℕ) : ℚ) ++ " " ++ jsIxN SCALES si
        else convertHundredsQ ((m % 1000 : ℕ) : ℚ)]
      else []) := by
  show (if 0 < jsMod (m : ℚ) 1000 then
      [if 0 < si then
        convertHundredsQ (jsMod (m : ℚ) 1000) ++ " " ++ jsIxN SCALES si
      else convertHundredsQ (jsMod (m : ℚ) 1000)]
    else []) = _
  rw [show (1000 : ℚ) = ((1000 : ℕ) : ℚ) from by norm_num,
    jsMod_natCast m 1000 (by norm_num)]
  by_cases hc : 0 < m % 1000
  · rw [if_pos (show (0 : ℚ) < ((m % 1000 : ℕ) : ℚ) from by exact_mod_cast hc),
      if_pos hc]
  · rw [if_neg (fun h => hc (by exact_mod_cast h)), if_neg hc]

theorem wordsWhileF_eq_wordsLoop (m : ℕ) : ∀ (f si : ℕ), m < f →
    wordsWhileF f (some (JSVal.fin (m : ℚ))) si = some (wordsLoop m si) := by
  induction m using Nat.strong_induction_on with
  | _ m ih =>
    intro f si hf
    cases f with
    | zero => omega
    | succ f =>
      rw [wordsLoop_eq]
      show (if jsGtZero (some (JSVal.fin (m : ℚ))) = true then
          (wordsWhileF f (jsFloorDiv1000 (some (JSVal.fin (m : ℚ)))) (si + 1)).map
            (fun parts => parts ++ chunkPartD (some (JSVal.fin (m : ℚ))) si)
        else some []) = _
      by_cases h0 : m = 0
      · subst h0
        rw [if_neg (by simp [jsGtZero]), if_pos rfl]
      · rw [if_pos (show jsGtZero (some (JSVal.fin (m : ℚ))) = true from by
          simp only [jsGtZero, decide_eq_true_eq]
          exact_mod_cast Nat.pos_of_ne_zero h0)]
        rw [if_neg h0, jsFloorDiv1000_natCast m,
          ih (m / 1000) (Nat.div_lt_self (Nat.pos_of_ne_zero h0) (by norm_num))
            f (si + 1) (by
              have := Nat.div_lt_self (Nat.pos_of_ne_zero h0)
                (show 1 < 1000 by norm_num)
              omega),
          Option.map_some', chunkPartD_nat]

theorem wordsWhile_fin_terminates (q : ℚ) :
    wordsWhileTerminates (some (JSVal.fin q)) := by
  by_cases hq : 0 < q
  · refine ⟨((⌊q / 1000⌋).toNat + 1) + 1, ?_⟩
    show ((if jsGtZero (some (JSVal.fin q)) = true then
        (wordsWhileF ((⌊q / 1000⌋).toNat + 1)
          (jsFloorDiv1000 (some (JSVal.fin q))) 1).map
          (fun parts => parts ++ chunkPartD (some (JSVal.fin q)) 0)
      else some []) : Option (List String)).isSome = true
    rw [if_pos (show jsGtZero (some (JSVal.fin q)) = true from by
      simp only [jsGtZero, decide_eq_true_eq]; exact hq)]
    have hnn : 0 ≤ ⌊q / 1000⌋ := Int.floor_nonneg.2 (by positivity)
    rw [show jsFloorDiv1000 (some (JSVal.fin q)) =
        some (JSVal.fin (((⌊q / 1000⌋).toNat : ℕ) : ℚ)) from by
      show some (JSVal.fin ((⌊q / 1000⌋ : ℤ) : ℚ)) = _
      rw [show ((⌊q / 1000⌋ : ℤ) : ℚ) = (((⌊q / 1000⌋).toNat : ℕ) : ℚ) from by
        exact_mod_cast (Int.toNat_of_nonneg hnn).symm]]
    rw [wordsWhileF_eq_wordsLoop ((⌊q / 1000⌋).toNat) ((⌊q / 1000⌋).toNat + 1) 1
      (by omega)]
    rfl
  · refine ⟨0, ?_⟩
    show ((if jsGtZero (some (JSVal.fin q)) = true then none
      else some ([] : List String)) : Option (List String)).isSome = true
    rw [if_neg (show ¬jsGtZero (some (JSVal.fin q)) = true from by
      simp only [jsGtZero, decide_eq_true_eq]; exact hq)]
    rfl

/-! ## Claims about convertNumber -/

/-- C1: whenever `convertNumber` returns a result with `isValid = false`, the
result carries `numericValue = 0` and `shorthandForm = "0"`; and inserting a
currency symbol anywhere in the input never changes `isValid` (currency
presence does not affect validity). -/
theorem claim1 :
    (∀ s : String, (convertNumber s).isValid = false →
      (convertNumber s).numericValue = some 0 ∧
        (convertNumber s).shorthandForm = "0") ∧
    (∀ (a b : List Char) (c : Char), c ∈ currencySymbols →
      (convertNumber (String.mk (a ++ c :: b))).isValid =
        (convertNumber (String.mk (a ++ b))).isValid) := by
  constructor
  · intro s h
    by_cases ht : jsTrim s.data = []
    · rw [convertNumber_of_trim_nil ht]
      exact ⟨rfl, rfl⟩
    · rcases hd : decodedOfTrimmed (jsTrim s.data) with _ | v
      · rw [convertNumber_of_invalid ht hd]
        exact ⟨rfl, rfl⟩
      · rw [convertNumber_of_valid ht hd] at h
        exact absurd h (by simp)
  · intro a b c hc
    obtain ⟨hs, hf⟩ := currency_not_kept hc
    rw [convertNumber_isValid, convertNumber_isValid]
    rw [show (String.mk (a ++ c :: b)).data = a ++ c :: b from rfl,
      show (String.mk (a ++ b)).data = a ++ b from rfl,
      decodedValue_insert a b hs hf]

theorem claim1_witness :
    ((convertNumber "x").numericValue = some 0 ∧
      (convertNumber "x").shorthandForm = "0") ∧
    (convertNumber (String.mk (['1'] ++ '$' :: []))).isValid =
      (convertNumber (String.mk (['1'] ++ []))).isValid :=
  ⟨claim1.1 "x" (by decide), claim1.2 ['1'] [] '$' (by decide)⟩

set_option maxRecDepth 40000 in
/-- C2 (counterexample): `convertNumber` does not terminate on every input.
On "1" followed by 400 zeros the shorthand grammar matches, the decoded
value overflows the double range to `Infinity`, the `isNaN` guard passes
(`Infinity` is not NaN), and `numberToWords` then runs its `while (num > 0)`
loop on `Infinity`, which no iteration bound completes: `Infinity % 1000` is
NaN (never pushed) and `Math.floor(Infinity / 1000)` is `Infinity` again. -/
theorem claim2_cex :
    decodedValueD (String.mk ('1' :: List.replicate 400 '0')).data =
      some (JSVal.inf false) ∧
    wordsWhileDiverges (some (JSVal.inf false)) :=
  ⟨by decide, fun f si => wordsWhileF_inf f si⟩

/-- C2 (amended): the words loop — the only construct of the source that can
fail to terminate — finishes on every finite numeric value, so on every
input whose decoded numeric value does not overflow the double range to an
infinity, `convertNumber` terminates without throwing and returns a
well-formed result record: the original input preserved verbatim, and either
a valid result carrying an actual decoded number or an invalid one with the
sentinel values `0`, `"0"` and one of the two sentinel word strings. -/
theorem claim2 :
    (∀ q : ℚ, wordsWhileTerminates (some (JSVal.fin q))) ∧
    (∀ s : String,
      decodedValueD s.data ≠ some (JSVal.inf false) →
      decodedValueD s.data ≠ some (JSVal.inf true) →
      (convertNumber s).originalInput = s ∧
      (((convertNumber s).isValid = true ∧
          ∃ q : ℚ, (convertNumber s).numericValue = some q) ∨
        ((convertNumber s).isValid = false ∧
          (convertNumber s).numericValue = some 0 ∧
          (convertNumber s).shorthandForm = "0" ∧
          ((convertNumber s).wordsForm = "zero" ∨
            (convertNumber s).wordsForm = "invalid input")))) := by
  constructor
  · exact wordsWhile_fin_terminates
  · intro s _ _
    by_cases ht : jsTrim s.data = []
    · rw [convertNumber_of_trim_nil ht]
      exact ⟨rfl, Or.inr ⟨rfl, rfl, rfl, Or.inl rfl⟩⟩
    · rcases hd : decodedOfTrimmed (jsTrim s.data) with _ | v
      · rw [convertNumber_of_invalid ht hd]
        exact ⟨rfl, Or.inr ⟨rfl, rfl, rfl, Or.inr rfl⟩⟩
      · rw [convertNumber_of_valid ht hd]
        exact ⟨rfl, Or.inl ⟨rfl, v, rfl⟩⟩

set_option maxRecDepth 40000 in
theorem claim2_witness :
    ((decodedValueD ("5").data ≠ some (JSVal.inf false)) ∧
      (decodedValueD ("5").data ≠ some (JSVal.inf true))) ∧
    ((convertNumber "5").originalInput = "5" ∧
      (((convertNumber "5").isValid = true ∧
          ∃ q : ℚ, (convertNumber "5").numericValue = some q) ∨
        ((convertNumber "5").isValid = false ∧
          (convertNumber "5").numericValue = some 0 ∧
          (convertNumber "5").shorthandForm = "0" ∧
          ((convertNumber "5").wordsForm = "zero" ∨
            (convertNumber "5").wordsForm = "invalid input")))) :=
  ⟨⟨by decide, by decide⟩, claim2.2 "5" (by decide) (by decide)⟩

/-- C8: the two invalid cases are distinguished by sentinel `wordsForm`
values — an input that is empty after trimming yields the record
`{numericValue := 0, shorthandForm := "0", wordsForm := "zero",
isValid := false}` with no currency, while a nonempty input on which both the
shorthand grammar and the plain fallback fail yields `wordsForm = "invalid
input"` and carries the detected currency. -/
theorem claim8 :
    (∀ s : String, jsTrim s.data = [] →
      convertNumber s = ⟨s, some 0, "0", "zero", none, false⟩) ∧
    (∀ s : String, jsTrim s.data ≠ [] →
      parseShorthand (String.mk (jsTrim s.data)) = none →
      parseFloatQ ((jsTrim s.data).filter keepFall) = none →
      convertNumber s =
        ⟨s, some 0, "0", "invalid input",
          extractCurrency (String.mk (jsTrim s.data)), false⟩) := by
  constructor
  · intro s h
    exact convertNumber_of_trim_nil h
  · intro s h h1 h2
    apply convertNumber_of_invalid h
    unfold decodedOfTrimmed
    rw [h1, h2]

theorem claim8_witness :
    convertNumber "" = ⟨"", some 0, "0", "zero", none, false⟩ ∧
    convertNumber "not a number" =
      ⟨"not a number", some 0, "0", "invalid input",
        extractCurrency (String.mk (jsTrim ("not a number").data)), false⟩ :=
  ⟨claim8.1 "" (by decide),
   claim8.2 "not a number" (by decide) (by decide) (by decide)⟩

/-- C10: every valid result carries an actual decoded number — if
`convertNumber` returns `isValid = true`, the `numericValue` is not NaN (the
NaN check before building the valid result guarantees a `some` value). -/
theorem claim10 : ∀ s : String, (convertNumber s).isValid = true →
    ∃ q : ℚ, (convertNumber s).numericValue = some q := by
  intro s h
  by_cases ht : jsTrim s.data = []
  · rw [convertNumber_of_trim_nil ht] at h
    exact absurd h (by simp)
  · rcases hd : decodedOfTrimmed (jsTrim s.data) with _ | v
    · rw [convertNumber_of_invalid ht hd] at h
      exact absurd h (by simp)
    · rw [convertNumber_of_valid ht hd]
      exact ⟨v, rfl⟩

theorem claim10_witness :
    (convertNumber "5").isValid = true ∧
      ∃ q : ℚ, (convertNumber "5").numericValue = some q :=
  ⟨by decide, claim10 "5" (by decide)⟩
